import Mathlib

/-!
Shallow embedding of the kline (OHLCV candle) core of the gocryptotrader
repository: the interval taxonomy with its word/short/duration renderings and
its unsupported-interval error, the trade validator/sorter, the candle
aggregator, the range planner, and the candle storage rows.

Durations and timestamps are modelled as `Int` nanoseconds, mirroring Go's
`time.Duration`/`time.Time` arithmetic.  Prices and amounts (Go `float64`)
are modelled as exact rationals: every operation the code performs on them
(comparison, max, min, addition in input order) is order-isomorphic to the
real-number behaviour on the values involved.

The type and constant declarations, the `ErrorKline` renderings, and the
database-store row construction are translated from the source files present
in the repository snapshot.  The bodies of `validateData`, `CreateKline`,
`Interval.Word`, `Interval.Short`, `DurationToWord`, `TotalCandlesPerInterval`
and `CalcDateRanges` are absent from the snapshot (only their tests,
declarations and callers are present); those definitions are modelled from the
specification, as marked in their doc comments.
-/

namespace Kline

/-- Interval type for kline interval usage: a duration in nanoseconds
(`type Interval time.Duration`). -/
abbrev Interval := Int

/-- Nanoseconds in one second (Go `time.Second`). -/
def nsPerSecond : Int := 1000000000

def OneMin : Interval := 60 * nsPerSecond

def ThreeMin : Interval := 3 * OneMin

def FiveMin : Interval := 5 * OneMin

def TenMin : Interval := 10 * OneMin

def FifteenMin : Interval := 15 * OneMin

def ThirtyMin : Interval := 30 * OneMin

def OneHour : Interval := 3600 * nsPerSecond

def TwoHour : Interval := 2 * OneHour

def FourHour : Interval := 4 * OneHour

def SixHour : Interval := 6 * OneHour

def EightHour : Interval := 8 * OneHour

def TwelveHour : Interval := 12 * OneHour

def TwentyFourHour : Interval := 24 * OneHour

def OneDay : Interval := TwentyFourHour

def ThreeDay : Interval := 3 * OneDay

def SevenDay : Interval := 7 * OneDay

def Fifteenday : Interval := 15 * OneDay

def OneWeek : Interval := 7 * OneDay

def TwoWeek : Interval := 2 * OneWeek

def OneMonth : Interval := 31 * OneDay

def OneYear : Interval := 365 * OneDay

/-- Underlying length of an interval (`func (i Interval) Duration()`);
total, no failure. -/
def Interval.Duration (i : Interval) : Int := i

/-- Trade record (`order.TradeHistory`), restricted to the fields the kline
core reads: timestamp, unique identifier, price, amount. -/
structure TradeHistory where
  Timestamp : Int
  TID : String
  Price : Rat
  Amount : Rat
deriving DecidableEq, Repr

/-- Candle holds historic rate information (window start time plus OHLCV). -/
structure Candle where
  Time : Int
  Open : Rat
  High : Rat
  Low : Rat
  Close : Rat
  Volume : Rat
deriving DecidableEq, Repr

/-- Currency pair (`currency.Pair`), restricted to base and quote codes. -/
structure Pair where
  Base : String
  Quote : String
deriving DecidableEq, Repr

/-- Asset class tag (`asset.Item`, a string type in the source). -/
abbrev Asset := String

/-- Item holds all the relevant information for internal kline elements. -/
structure Item where
  Exchange : String
  Pair : Pair
  Asset : Asset
  Interval : Interval
  Candles : List Candle
deriving DecidableEq, Repr

/-- Error kinds of the kline core: empty/nil input, malformed trade record
(named by its TID), and non-positive interval. -/
inductive KlineError where
  | emptyInput : KlineError
  | invalidRecord (tid : String) : KlineError
  | invalidInterval : KlineError
deriving DecidableEq, Repr

deriving instance DecidableEq for Except

/-- Well-formedness of a single trade record: non-zero timestamp, positive
price, positive amount. -/
def wellFormed (t : TradeHistory) : Bool :=
  decide (t.Timestamp ≠ 0) && decide (0 < t.Price) && decide (0 < t.Amount)

/-- Chronological comparison used by the validator's sort. -/
def tradeLE (a b : TradeHistory) : Prop := a.Timestamp ≤ b.Timestamp

instance : DecidableRel tradeLE :=
  fun a b => inferInstanceAs (Decidable (a.Timestamp ≤ b.Timestamp))

instance : IsTotal TradeHistory tradeLE :=
  ⟨fun a b => Int.le_total a.Timestamp b.Timestamp⟩

instance : IsTrans TradeHistory tradeLE :=
  ⟨fun _ _ _ hab hbc => Int.le_trans hab hbc⟩

/-- Modelled from the spec: the body of `validateData` is absent from the
snapshot (only its test is present).  Fails with the empty-input error when
the input is nil or has zero length; fails with the invalid-record error,
naming the deficient record, when any record has a zero timestamp, a
non-positive price, or a non-positive amount; on success returns the records
reordered by a stable sort into ascending order by timestamp (§4.2, §9 of the
spec: stable-sort tie-break). -/
def validateData (trades : List TradeHistory) : Except KlineError (List TradeHistory) :=
  match trades with
  | [] => .error .emptyInput
  | _ =>
    match trades.find? (fun t => !wellFormed t) with
    | some t => .error (.invalidRecord t.TID)
    | none => .ok (trades.insertionSort tradeLE)

/-- Start of the interval-sized window containing nanosecond timestamp `ts`:
the timestamp truncated down to a multiple of the interval. -/
def windowStart (i : Interval) (ts : Int) : Int := ts / i * i

/-- Boolean test that trade `t` falls in the window beginning at `w`. -/
def sameWindow (i : Interval) (w : Int) (t : TradeHistory) : Bool :=
  decide (windowStart i t.Timestamp = w)

/-- Candle aggregated from the first trade `t` of a window and the remaining
trades `run` of that window, in order: open is the first trade's price, close
the last trade's price, high/low the running max/min of prices, volume the sum
of amounts. -/
def candleOf (i : Interval) (t : TradeHistory) (run : List TradeHistory) : Candle :=
  { Time := windowStart i t.Timestamp
    Open := t.Price
    High := run.foldl (fun m u => max m u.Price) t.Price
    Low := run.foldl (fun m u => min m u.Price) t.Price
    Close := ((run.getLast?).getD t).Price
    Volume := run.foldl (fun s u => s + u.Amount) t.Amount }

/-- Modelled from the spec: the bucketing loop of `CreateKline` is absent from
the snapshot.  Buckets chronologically sorted trades into consecutive,
non-overlapping windows of length `i`; each maximal run of trades sharing a
window yields one candle; windows containing no trades are omitted (§4.3 and
§9 of the spec: the omit gap policy). -/
def makeCandles (i : Interval) (trades : List TradeHistory) : List Candle :=
  match trades with
  | [] => []
  | t :: rest =>
    let w := windowStart i t.Timestamp
    candleOf i t (rest.takeWhile (sameWindow i w)) ::
      makeCandles i (rest.dropWhile (sameWindow i w))
termination_by trades.length
decreasing_by
  simp only [List.length_cons]
  exact Nat.lt_succ_of_le (List.dropWhile_sublist _ |>.length_le)

/-- Modelled from the spec: the body of `CreateKline` is absent from the
snapshot (only its test is present).  Fails if the interval is not strictly
positive; runs the validator/sorter, propagating its failures unchanged; on
success returns an `Item` populated with exchange name, pair, asset, interval
and the aggregated candle sequence (§4.3 of the spec). -/
def CreateKline (trades : List TradeHistory) (i : Interval) (p : Pair)
    (a : Asset) (exchangeName : String) : Except KlineError Item :=
  if i ≤ 0 then .error .invalidInterval
  else
    match validateData trades with
    | .error e => .error e
    | .ok sorted =>
      .ok { Exchange := exchangeName, Pair := p, Asset := a, Interval := i
            Candles := makeCandles i sorted }

/-- Pairs of well-known interval durations and their canonical lowercase
words.  Modelled from the spec (§3, §4.1) and the word fixtures of the test
file: aliased constants (`OneDay`/`TwentyFourHour`, `OneWeek`/`SevenDay`)
share one duration and hence one entry. -/
def intervalWords : List (Interval × String) :=
  [(OneMin, "onemin"), (ThreeMin, "threemin"), (FiveMin, "fivemin"),
   (TenMin, "tenmin"), (FifteenMin, "fifteenmin"), (ThirtyMin, "thirtymin"),
   (OneHour, "onehour"), (TwoHour, "twohour"), (FourHour, "fourhour"),
   (SixHour, "sixhour"), (EightHour, "eighthour"), (TwelveHour, "twelvehour"),
   (OneDay, "oneday"), (ThreeDay, "threeday"), (Fifteenday, "fifteenday"),
   (OneWeek, "oneweek"), (TwoWeek, "twoweek"), (OneMonth, "onemonth"),
   (OneYear, "oneyear")]

/-- Modelled from the spec: the body of `DurationToWord` is absent from the
snapshot (only its test is present).  Looks the duration up in the well-known
table and returns the fallback literal for durations outside it. -/
def DurationToWord (i : Interval) : String :=
  (((intervalWords.find? (fun p => decide (p.1 = i))).map (fun p => p.2))).getD "notfound"

/-- Modelled from the spec: the body of `Interval.Word` is absent from the
snapshot.  Same lookup as `DurationToWord`, exposed as a method (§4.1). -/
def Interval.Word (i : Interval) : String := DurationToWord i

/-- Characters of the decimal digits of `n` left-padded with zeros to `prec`
digits (the fractional part of a duration in a given unit). -/
def padDigits (n : Nat) (prec : Nat) : String :=
  String.mk ((toString (10 ^ prec + n % 10 ^ prec)).toList.drop 1)

/-- Fractional-part rendering of Go's duration formatting: the `prec` digits
of `n` with trailing zeros removed, preceded by a decimal point, or the empty
string if the fraction is zero. -/
def fracPart (n : Nat) (prec : Nat) : String :=
  let digits := String.mk (((padDigits n prec).toList.reverse.dropWhile
    (fun c => c == '0')).reverse)
  if digits = "" then "" else "." ++ digits

/-- Go's `time.Duration.String` default rendering of a nanosecond count, used
by the unsupported-interval error's unwrapped form via the `%s` verb (the
source's `Interval` string rendering is absent from the snapshot; the spec
(§4.1) pins it to the raw duration's default string rendering). -/
def durationString (d : Int) : String :=
  if d = 0 then "0s"
  else
    let u := d.natAbs
    let core :=
      if u < 1000 then toString u ++ "ns"
      else if u < 1000000 then
        toString (u / 1000) ++ fracPart (u % 1000) 3 ++ "µs"
      else if u < 1000000000 then
        toString (u / 1000000) ++ fracPart (u % 1000000) 6 ++ "ms"
      else
        let secs := u / 1000000000
        let sPart := toString (secs % 60) ++ fracPart (u % 1000000000) 9 ++ "s"
        let mins := secs / 60
        if mins = 0 then sPart
        else
          let mPart := toString (mins % 60) ++ "m" ++ sPart
          let hours := mins / 60
          if hours = 0 then mPart else toString hours ++ "h" ++ mPart
    if d < 0 then "-" ++ core else core

/-- Modelled from the spec: the body of `Interval.Short` is absent from the
snapshot.  Compact human string for the duration, derived mechanically from
the duration and not from the table (§4.1): the default duration rendering
with trailing zero minute and second components dropped, so a day-long
interval yields its hour form. -/
def Interval.Short (i : Interval) : String :=
  let s := (durationString i).toList
  let s2 := if s.reverse.take 3 = ['s', '0', 'm'] then s.dropLast.dropLast else s
  let s3 := if s2.reverse.take 3 = ['m', '0', 'h'] then s2.dropLast.dropLast else s2
  String.mk s3

/-- ErrUnsupportedInterval locale for an unsupported interval. -/
def ErrUnsupportedInterval : String := "%s interval unsupported by exchange"

/-- Replacement of the first `%s` placeholder in a character sequence by the
argument characters. -/
def replaceFirstPS : List Char → List Char → List Char
  | [], _ => []
  | '%' :: 's' :: rest, arg => arg ++ rest
  | c :: rest, arg => c :: replaceFirstPS rest arg

/-- Instantiation of a one-verb format string: the first `%s` placeholder is
replaced by the argument (the behaviour of `fmt.Sprintf`/`fmt.Errorf` on the
fixed template used here). -/
def sprintfS (format arg : String) : String :=
  String.mk (replaceFirstPS format.toList arg.toList)

/-- ErrorKline struct to hold kline interval errors: preserves the offending
interval. -/
structure ErrorKline where
  Interval : Interval
deriving DecidableEq, Repr

/-- Error returns the short interval-unsupported message
(`fmt.Sprintf(ErrUnsupportedInterval, k.Interval.Word())`). -/
def ErrorKline.Error (k : ErrorKline) : String :=
  sprintfS ErrUnsupportedInterval (Interval.Word k.Interval)

/-- Unwrap returns the long interval-unsupported message
(`fmt.Errorf(ErrUnsupportedInterval, k.Interval)`, rendering the raw
duration). -/
def ErrorKline.Unwrap (k : ErrorKline) : String :=
  sprintfS ErrUnsupportedInterval (durationString k.Interval)

/-- One start/end timestamp pair of the range planner (the source's private
`dateRange` with fields `start`/`end`; `end` is rendered `stop` here because
it is reserved). -/
structure DateRange where
  start : Int
  stop : Int
deriving DecidableEq, Repr

/-- Modelled from the spec: the body of `CalcDateRanges` is absent from the
snapshot (only its test is present).  Interval-sized windows tiling `[s, e]`
in order: each window except possibly the last has length exactly `i` and the
last is clipped to end at `e` (§4.4, §3 DateWindow). -/
def windowsBetween (i : Interval) (s e : Int) : List DateRange :=
  if h1 : i ≤ 0 then []
  else if h2 : e ≤ s then []
  else if h3 : e ≤ s + i then [⟨s, e⟩]
  else ⟨s, s + i⟩ :: windowsBetween i (s + i) e
termination_by (e - s).toNat
decreasing_by
  simp_wf
  have hi : (0 : Int) < i := lt_of_not_le h1
  omega

/-- Consecutive chunks of at most `n` elements (the packing of windows into
size-`limit` groups). -/
def chunks (n : Nat) : List α → List (List α)
  | [] => []
  | a :: rest =>
    if n = 0 then []
    else (a :: rest).take n :: chunks n ((a :: rest).drop n)
termination_by l => l.length
decreasing_by simp only [List.length_drop, List.length_cons]; omega

/-- Modelled from the spec: the body of `TotalCandlesPerInterval` is absent
from the snapshot (only its test and a caller are present).  The number of
interval-sized buckets needed to cover the span: the ceiling of
`(end − start) / Duration(interval)` (§4.4). -/
def TotalCandlesPerInterval (start endT : Int) (i : Interval) : Int :=
  (endT - start + i - 1) / i

/-- Modelled from the spec: the body of `CalcDateRanges` is absent from the
snapshot (only its test is present).  Partitions `[start, end]` into
interval-sized windows and packs consecutive windows into groups of at most
`limit`; `limit ≤ 0` is an error condition (§4.4). -/
def CalcDateRanges (start endT : Int) (i : Interval) (limit : Int) :
    Option (List (List DateRange)) :=
  if limit ≤ 0 then none
  else some (chunks limit.toNat (windowsBetween i start endT))

/-- One row of the candle table, with the columns the store writes
(`modelPSQL.Candle` as populated by `OHLCVDatabaseStore`). -/
structure CandleRow where
  ExchangeID : String
  Base : String
  Quote : String
  Timestamp : Int
  Open : Rat
  High : Rat
  Low : Rat
  Close : Rat
  Volume : Rat
  RowInterval : String
deriving DecidableEq, Repr

/-- Rows built by `OHLCVDatabaseStore` from an `Item`: one row per candle,
with upper-cased base and quote codes, the resolved exchange identifier, and
the interval rendered by `Interval.Short` (the `Interval: in.Interval.Short()`
field of the source's loop). -/
def databaseCandles (exchangeUUID : String) (item : Item) : List CandleRow :=
  item.Candles.map (fun c =>
    { ExchangeID := exchangeUUID
      Base := String.mk (item.Pair.Base.toList.map Char.toUpper)
      Quote := String.mk (item.Pair.Quote.toList.map Char.toUpper)
      Timestamp := c.Time
      Open := c.Open
      High := c.High
      Low := c.Low
      Close := c.Close
      Volume := c.Volume
      RowInterval := Interval.Short item.Interval })

/-- Composite key of the candle upsert: the source's conflict column list
`["date","exchange_id","base","quote","interval"]`. -/
def candleKey (r : CandleRow) : Int × String × String × String × String :=
  (r.Timestamp, r.ExchangeID, r.Base, r.Quote, r.RowInterval)

/-- Upsert of one row into the candle table, modelled from the source's
`tempCandle.Upsert(ctx, tx, true, []string{...}, ...)`: on conflict of the
composite key the existing row is updated, otherwise the row is appended. -/
def upsertCandle (tbl : List CandleRow) (r : CandleRow) : List CandleRow :=
  if tbl.any (fun x => decide (candleKey x = candleKey r)) then
    tbl.map (fun x => if candleKey x = candleKey r then r else x)
  else tbl ++ [r]

/-- InsertMany of the candle repository: rows are upserted one at a time in
order. -/
def insertManyCandles (tbl : List CandleRow) (rows : List CandleRow) : List CandleRow :=
  rows.foldl upsertCandle tbl

/-- Boolean test that a trade's timestamp falls in the half-open window
`[w, w + i)` (the time range one candle summarizes). -/
def inWindowB (i : Int) (w : Int) (t : TradeHistory) : Bool :=
  decide (w ≤ t.Timestamp) && decide (t.Timestamp < w + i)

/-- Specification of one aggregated candle against the trade batch it was
built from: over the trades falling in the candle's window, open is the first
trade's price, close the last trade's price, high/low the maximum/minimum
price, and volume the sum of amounts (§4.3 of the spec). -/
def CandleWindowSpec (trades : List TradeHistory) (i : Interval) (c : Candle) : Prop :=
  (trades.filter (inWindowB i c.Time)).head?.map (fun u => u.Price) = some c.Open ∧
  (trades.filter (inWindowB i c.Time)).getLast?.map (fun u => u.Price) = some c.Close ∧
  c.High ∈ (trades.filter (inWindowB i c.Time)).map (fun u => u.Price) ∧
  (∀ q ∈ (trades.filter (inWindowB i c.Time)).map (fun u => u.Price), q ≤ c.High) ∧
  c.Low ∈ (trades.filter (inWindowB i c.Time)).map (fun u => u.Price) ∧
  (∀ q ∈ (trades.filter (inWindowB i c.Time)).map (fun u => u.Price), c.Low ≤ q) ∧
  c.Volume = ((trades.filter (inWindowB i c.Time)).map (fun u => u.Amount)).sum

/-- Specification of an aggregated `Item` against the trade batch: a non-empty
candle sequence, strictly ascending with no duplicate timestamps, with
consecutive non-overlapping windows, each candle correct for its window, and
every trade covered by some candle's window. -/
def CandleSpec (trades : List TradeHistory) (i : Interval) (item : Item) : Prop :=
  item.Candles ≠ [] ∧
  List.Pairwise (fun a b => a.Time < b.Time) item.Candles ∧
  List.Pairwise (fun a b => a.Time + i ≤ b.Time) item.Candles ∧
  (∀ c ∈ item.Candles, CandleWindowSpec trades i c) ∧
  (∀ t ∈ trades, ∃ c ∈ item.Candles, c.Time ≤ t.Timestamp ∧ t.Timestamp < c.Time + i)

/-- Specification of a planned partition: groups of exactly `limit` windows
except a final group of 1..`limit`; the flattened windows cover `[s, e]` in
order with no gaps and no overlaps; every window except possibly the last has
length exactly the interval, and the last is clipped to end at `e` (§4.4 of
the spec). -/
def PlanSpec (s e : Int) (i : Interval) (limit : Int) (gs : List (List DateRange)) : Prop :=
  gs ≠ [] ∧
  (∀ g ∈ gs.dropLast, (g.length : Int) = limit) ∧
  (∀ g, gs.getLast? = some g → 1 ≤ g.length ∧ (g.length : Int) ≤ limit) ∧
  gs.flatten ≠ [] ∧
  gs.flatten.head?.map DateRange.start = some s ∧
  (∀ w, gs.flatten.getLast? = some w → w.stop = e) ∧
  List.Chain' (fun a b => a.stop = b.start) gs.flatten ∧
  (∀ w ∈ gs.flatten, w.start < w.stop) ∧
  (∀ w ∈ gs.flatten.dropLast, w.stop - w.start = i) ∧
  (∀ w, gs.flatten.getLast? = some w → w.stop - w.start ≤ i)

/-! ### Window-start arithmetic -/

theorem windowStart_le {i : Int} (hi : 0 < i) (ts : Int) : windowStart i ts ≤ ts :=
  Int.ediv_mul_le ts (ne_of_gt hi)

theorem lt_windowStart_add {i : Int} (hi : 0 < i) (ts : Int) :
    ts < windowStart i ts + i := by
  simpa [windowStart, add_mul] using Int.lt_ediv_add_one_mul_self ts hi

theorem windowStart_mono {i : Int} (hi : 0 < i) {a b : Int} (h : a ≤ b) :
    windowStart i a ≤ windowStart i b :=
  mul_le_mul_of_nonneg_right (Int.ediv_le_ediv hi h) (le_of_lt hi)

theorem windowStart_mul {i : Int} (hi : 0 < i) (q : Int) :
    windowStart i (q * i) = q * i := by
  unfold windowStart
  rw [Int.mul_ediv_cancel _ (ne_of_gt hi)]

theorem windowStart_eq_iff {i x y : Int} (hi : 0 < i) :
    windowStart i x = windowStart i y ↔
      windowStart i y ≤ x ∧ x < windowStart i y + i := by
  constructor
  · intro h
    exact ⟨h ▸ windowStart_le hi x, h ▸ lt_windowStart_add hi x⟩
  · rintro ⟨h1, h2⟩
    unfold windowStart at h1 h2 ⊢
    have hle : y / i ≤ x / i := (Int.le_ediv_iff_mul_le hi).mpr h1
    have hlt : x / i < y / i + 1 := by
      refine (Int.ediv_lt_iff_lt_mul hi).mpr ?_
      rw [add_one_mul]
      linarith
    have : x / i = y / i := by omega
    rw [this]

theorem windowStart_add_le_of_lt {i x y : Int} (hi : 0 < i)
    (h : windowStart i x < windowStart i y) :
    windowStart i x + i ≤ windowStart i y := by
  unfold windowStart at h ⊢
  have hq : x / i < y / i := lt_of_mul_lt_mul_right h (le_of_lt hi)
  calc x / i * i + i = (x / i + 1) * i := by ring
    _ ≤ y / i * i := mul_le_mul_of_nonneg_right (by omega) (le_of_lt hi)

theorem windowStart_succ_le {i t u : Int} (hi : 0 < i)
    (h : windowStart i t + i ≤ u) :
    windowStart i t + i ≤ windowStart i u := by
  have h2 : windowStart i t + i = (t / i + 1) * i := by unfold windowStart; ring
  rw [h2] at h ⊢
  calc (t / i + 1) * i = windowStart i ((t / i + 1) * i) :=
        (windowStart_mul hi _).symm
    _ ≤ windowStart i u := windowStart_mono hi h

/-! ### Fold lemmas for the candle aggregates -/

theorem foldl_max_init (l : List TradeHistory) :
    ∀ a : Rat, a ≤ l.foldl (fun m u => max m u.Price) a := by
  induction l with
  | nil => intro a; simp
  | cons u l ih =>
    intro a
    simp only [List.foldl_cons]
    exact le_trans (le_max_left a u.Price) (ih _)

theorem foldl_max_mem (l : List TradeHistory) :
    ∀ a : Rat, l.foldl (fun m u => max m u.Price) a = a ∨
      l.foldl (fun m u => max m u.Price) a ∈ l.map (fun u => u.Price) := by
  induction l with
  | nil => intro a; left; rfl
  | cons u l ih =>
    intro a
    simp only [List.foldl_cons, List.map_cons, List.mem_cons]
    rcases ih (max a u.Price) with h | h
    · rcases max_choice a u.Price with h2 | h2
      · left; rw [h, h2]
      · right; left; rw [h, h2]
    · right; right; exact h

theorem le_foldl_max (l : List TradeHistory) :
    ∀ (a x : Rat), x ∈ l.map (fun u => u.Price) →
      x ≤ l.foldl (fun m u => max m u.Price) a := by
  induction l with
  | nil => simp
  | cons u l ih =>
    intro a x hx
    simp only [List.map_cons, List.mem_cons] at hx
    simp only [List.foldl_cons]
    rcases hx with rfl | hx
    · exact le_trans (le_max_right a u.Price) (foldl_max_init l _)
    · exact ih _ x hx

theorem foldl_min_init (l : List TradeHistory) :
    ∀ a : Rat, l.foldl (fun m u => min m u.Price) a ≤ a := by
  induction l with
  | nil => intro a; simp
  | cons u l ih =>
    intro a
    simp only [List.foldl_cons]
    exact le_trans (ih _) (min_le_left a u.Price)

theorem foldl_min_mem (l : List TradeHistory) :
    ∀ a : Rat, l.foldl (fun m u => min m u.Price) a = a ∨
      l.foldl (fun m u => min m u.Price) a ∈ l.map (fun u => u.Price) := by
  induction l with
  | nil => intro a; left; rfl
  | cons u l ih =>
    intro a
    simp only [List.foldl_cons, List.map_cons, List.mem_cons]
    rcases ih (min a u.Price) with h | h
    · rcases min_choice a u.Price with h2 | h2
      · left; rw [h, h2]
      · right; left; rw [h, h2]
    · right; right; exact h

theorem foldl_min_le (l : List TradeHistory) :
    ∀ (a x : Rat), x ∈ l.map (fun u => u.Price) →
      l.foldl (fun m u => min m u.Price) a ≤ x := by
  induction l with
  | nil => simp
  | cons u l ih =>
    intro a x hx
    simp only [List.map_cons, List.mem_cons] at hx
    simp only [List.foldl_cons]
    rcases hx with rfl | hx
    · exact le_trans (foldl_min_init l _) (min_le_right a u.Price)
    · exact ih _ x hx

theorem foldl_add_eq (l : List TradeHistory) :
    ∀ a : Rat, l.foldl (fun s u => s + u.Amount) a =
      a + (l.map (fun u => u.Amount)).sum := by
  induction l with
  | nil => intro a; simp
  | cons u l ih =>
    intro a
    simp only [List.foldl_cons, List.map_cons, List.sum_cons, ih]
    ring

/-! ### Range-planner window lemmas -/

theorem windowsBetween_spec {i : Int} (hi : 0 < i) :
    ∀ (n : Nat) (s e : Int), (e - s).toNat ≤ n → s < e →
      windowsBetween i s e ≠ [] ∧
      (windowsBetween i s e).head?.map DateRange.start = some s ∧
      (∀ w, (windowsBetween i s e).getLast? = some w → w.stop = e) ∧
      List.Chain' (fun a b => a.stop = b.start) (windowsBetween i s e) ∧
      (∀ w ∈ windowsBetween i s e, w.start < w.stop) ∧
      (∀ w ∈ (windowsBetween i s e).dropLast, w.stop - w.start = i) ∧
      (∀ w, (windowsBetween i s e).getLast? = some w → w.stop - w.start ≤ i) ∧
      ((windowsBetween i s e).length : Int) = (e - s + i - 1) / i := by
  intro n
  induction n with
  | zero =>
    intro s e hn hse
    omega
  | succ n ih =>
    intro s e hn hse
    rw [windowsBetween, dif_neg (not_le.mpr hi), dif_neg (not_le.mpr hse)]
    by_cases hc : e ≤ s + i
    · rw [dif_pos hc]
      have hlen : (e - s + i - 1) / i = 1 := by
        have h2 : (e - s + i - 1) / i < 2 :=
          (Int.ediv_lt_iff_lt_mul hi).mpr (by linarith)
        have h1 : 1 ≤ (e - s + i - 1) / i :=
          (Int.le_ediv_iff_mul_le hi).mpr (by linarith)
        omega
      refine ⟨by simp, by simp, ?_, ?_, ?_, ?_, ?_, ?_⟩
      · intro w hw
        simp only [List.getLast?_singleton, Option.some.injEq] at hw
        rw [← hw]
      · exact List.chain'_singleton _
      · intro w hw
        simp only [List.mem_singleton] at hw
        rw [hw]
        exact hse
      · intro w hw
        simp at hw
      · intro w hw
        simp only [List.getLast?_singleton, Option.some.injEq] at hw
        rw [← hw]
        show e - s ≤ i
        omega
      · simpa using hlen.symm
    · rw [dif_neg hc]
      have hrec := ih (s + i) e (by omega) (by omega)
      obtain ⟨hne, hhead, hlast, hchain, hpos, hdrop, hlastlen, hlen⟩ := hrec
      obtain ⟨w0, W2, hW⟩ : ∃ w0 W2, windowsBetween i (s + i) e = w0 :: W2 :=
        List.exists_cons_of_ne_nil hne
      have hw0 : w0.start = s + i := by
        rw [hW] at hhead
        simpa using hhead
      refine ⟨by simp, by simp, ?_, ?_, ?_, ?_, ?_, ?_⟩
      · intro w hw
        rw [hW, List.getLast?_cons_cons] at hw
        exact hlast w (by rw [hW]; exact hw)
      · rw [hW]
        refine List.chain'_cons.mpr ⟨by simp [hw0], ?_⟩
        rw [← hW]
        exact hchain
      · intro w hw
        rcases List.mem_cons.mp hw with h | h
        · rw [h]; show s < s + i; omega
        · exact hpos w h
      · intro w hw
        rw [List.dropLast_cons_of_ne_nil hne] at hw
        rcases List.mem_cons.mp hw with h | h
        · rw [h]; show s + i - s = i; ring
        · exact hdrop w h
      · intro w hw
        rw [hW, List.getLast?_cons_cons] at hw
        exact hlastlen w (by rw [hW]; exact hw)
      · simp only [List.length_cons]
        have harith : e - s + i - 1 = (e - (s + i) + i - 1) + 1 * i := by ring
        rw [harith, Int.add_mul_ediv_right _ _ (ne_of_gt hi), ← hlen]
        push_cast
        ring

/-! ### Chunking lemmas -/

theorem chunks_spec {α : Type _} {n : Nat} (hn : n ≠ 0) :
    ∀ (m : Nat) (l : List α), l.length ≤ m → l ≠ [] →
      chunks n l ≠ [] ∧
      (chunks n l).flatten = l ∧
      (∀ g ∈ (chunks n l).dropLast, g.length = n) ∧
      (∀ g, (chunks n l).getLast? = some g → 1 ≤ g.length ∧ g.length ≤ n) := by
  intro m
  induction m with
  | zero =>
    intro l hm hl
    cases l with
    | nil => exact absurd rfl hl
    | cons a rest => simp at hm
  | succ m ih =>
    intro l hm hl
    obtain ⟨a, rest, rfl⟩ : ∃ a rest, l = a :: rest := List.exists_cons_of_ne_nil hl
    rw [chunks, if_neg hn]
    by_cases hd : (a :: rest).drop n = []
    · have hlen : (a :: rest).length ≤ n := List.drop_eq_nil_iff.mp hd
      rw [hd]
      rw [chunks]
      refine ⟨by simp, ?_, ?_, ?_⟩
      · simp [List.take_of_length_le hlen]
      · intro g hg
        simp at hg
      · intro g hg
        simp only [List.getLast?_singleton, Option.some.injEq] at hg
        rw [← hg, List.length_take]
        constructor
        · simp only [List.length_cons]
          omega
        · exact min_le_left _ _
    · have hlt : n < (a :: rest).length := by
        by_contra hcon
        exact hd (List.drop_eq_nil_iff.mpr (by omega))
      have hrec := ih ((a :: rest).drop n)
        (by simp only [List.length_drop, List.length_cons] at hm hlt ⊢; omega) hd
      obtain ⟨hne, hflat, hdrop, hlast⟩ := hrec
      obtain ⟨g0, C2, hC⟩ : ∃ g0 C2, chunks n ((a :: rest).drop n) = g0 :: C2 :=
        List.exists_cons_of_ne_nil hne
      refine ⟨by simp, ?_, ?_, ?_⟩
      · simp only [List.flatten_cons, hflat]
        exact List.take_append_drop n (a :: rest)
      · intro g hg
        rw [List.dropLast_cons_of_ne_nil hne] at hg
        rcases List.mem_cons.mp hg with h | h
        · rw [h, List.length_take]
          omega
        · exact hdrop g h
      · intro g hg
        rw [hC, List.getLast?_cons_cons] at hg
        exact hlast g (by rw [hC]; exact hg)


/-! ### Candle-aggregator lemmas -/

theorem makeCandles_nil (i : Int) : makeCandles i [] = [] := by
  rw [makeCandles]

theorem makeCandles_cons (i : Int) (t : TradeHistory) (rest : List TradeHistory) :
    makeCandles i (t :: rest) =
      candleOf i t (rest.takeWhile (sameWindow i (windowStart i t.Timestamp))) ::
        makeCandles i (rest.dropWhile (sameWindow i (windowStart i t.Timestamp))) := by
  rw [makeCandles]

theorem dropWhile_head_false {α : Type _} (p : α → Bool) :
    ∀ (l : List α) (a : α) (tl : List α), l.dropWhile p = a :: tl → p a = false := by
  intro l
  induction l with
  | nil =>
    intro a tl h
    simp at h
  | cons x xs ih =>
    intro a tl h
    rw [List.dropWhile_cons] at h
    by_cases hx : p x = true
    · rw [if_pos hx] at h
      exact ih a tl h
    · rw [if_neg hx] at h
      injection h with h1 _
      rw [← h1]
      cases hpx : p x with
      | false => rfl
      | true => exact absurd hpx hx

theorem dropWhile_window_lb {i : Int} (hi : 0 < i) (t : TradeHistory)
    (rest : List TradeHistory) (hs : List.Sorted tradeLE (t :: rest)) :
    ∀ u ∈ rest.dropWhile (sameWindow i (windowStart i t.Timestamp)),
      windowStart i t.Timestamp + i ≤ u.Timestamp := by
  cases hd : rest.dropWhile (sameWindow i (windowStart i t.Timestamp)) with
  | nil =>
    intro u hu
    simp at hu
  | cons u0 tail =>
    have hu0false : sameWindow i (windowStart i t.Timestamp) u0 = false :=
      dropWhile_head_false _ rest u0 tail hd
    have hu0mem : u0 ∈ rest :=
      (List.dropWhile_sublist (sameWindow i (windowStart i t.Timestamp))).subset
        (by rw [hd]; exact List.mem_cons_self u0 tail)
    have ht_u0 : t.Timestamp ≤ u0.Timestamp := (List.sorted_cons.mp hs).1 u0 hu0mem
    have hws_ge : windowStart i t.Timestamp ≤ windowStart i u0.Timestamp :=
      windowStart_mono hi ht_u0
    have hws_ne : windowStart i u0.Timestamp ≠ windowStart i t.Timestamp := by
      simpa [sameWindow] using hu0false
    have hws_gt : windowStart i t.Timestamp < windowStart i u0.Timestamp :=
      lt_of_le_of_ne hws_ge (Ne.symm hws_ne)
    have hstep : windowStart i t.Timestamp + i ≤ windowStart i u0.Timestamp :=
      windowStart_add_le_of_lt hi hws_gt
    have hu0_lb : windowStart i t.Timestamp + i ≤ u0.Timestamp :=
      le_trans hstep (windowStart_le hi u0.Timestamp)
    intro u hu
    rcases List.mem_cons.mp hu with rfl | hmem
    · exact hu0_lb
    · have hsorted' : List.Sorted tradeLE
          (rest.dropWhile (sameWindow i (windowStart i t.Timestamp))) :=
        List.Pairwise.sublist
          (List.dropWhile_sublist (sameWindow i (windowStart i t.Timestamp)))
          (List.sorted_cons.mp hs).2
      rw [hd] at hsorted'
      have hle : u0.Timestamp ≤ u.Timestamp := (List.sorted_cons.mp hsorted').1 u hmem
      exact le_trans hu0_lb hle

theorem filter_window_eq {i : Int} (hi : 0 < i) (t : TradeHistory)
    (rest : List TradeHistory) (hs : List.Sorted tradeLE (t :: rest)) :
    (t :: rest).filter (inWindowB i (windowStart i t.Timestamp)) =
      t :: rest.takeWhile (sameWindow i (windowStart i t.Timestamp)) := by
  have hsplit : rest = rest.takeWhile (sameWindow i (windowStart i t.Timestamp)) ++
      rest.dropWhile (sameWindow i (windowStart i t.Timestamp)) :=
    (List.takeWhile_append_dropWhile _ _).symm
  have hpt : inWindowB i (windowStart i t.Timestamp) t = true := by
    simp only [inWindowB, Bool.and_eq_true, decide_eq_true_eq]
    exact ⟨windowStart_le hi t.Timestamp, lt_windowStart_add hi t.Timestamp⟩
  have hrun : ∀ x ∈ rest.takeWhile (sameWindow i (windowStart i t.Timestamp)),
      inWindowB i (windowStart i t.Timestamp) x = true := by
    intro x hx
    have hsw : sameWindow i (windowStart i t.Timestamp) x = true :=
      List.mem_takeWhile_imp hx
    have hws : windowStart i x.Timestamp = windowStart i t.Timestamp := by
      simpa [sameWindow] using hsw
    have := (windowStart_eq_iff hi).mp hws
    simp only [inWindowB, Bool.and_eq_true, decide_eq_true_eq]
    exact this
  have hrest : ∀ x ∈ rest.dropWhile (sameWindow i (windowStart i t.Timestamp)),
      ¬ inWindowB i (windowStart i t.Timestamp) x = true := by
    intro x hx
    have := dropWhile_window_lb hi t rest hs x hx
    simp only [inWindowB, Bool.and_eq_true, decide_eq_true_eq, not_and, not_lt]
    intro _
    omega
  nth_rewrite 1 [hsplit]
  rw [List.filter_cons_of_pos hpt, List.filter_append,
    List.filter_eq_self.mpr hrun, List.filter_eq_nil_iff.mpr hrest,
    List.append_nil]

theorem makeCandles_time_mem {i : Int} :
    ∀ (n : Nat) (ts : List TradeHistory), ts.length ≤ n →
      ∀ c ∈ makeCandles i ts, ∃ u ∈ ts, c.Time = windowStart i u.Timestamp := by
  intro n
  induction n with
  | zero =>
    intro ts hn c hc
    cases ts with
    | nil => rw [makeCandles_nil] at hc; simp at hc
    | cons t rest => simp at hn
  | succ n ih =>
    intro ts hn c hc
    cases ts with
    | nil => rw [makeCandles_nil] at hc; simp at hc
    | cons t rest =>
      rw [makeCandles_cons] at hc
      rcases List.mem_cons.mp hc with rfl | hmem
      · exact ⟨t, List.mem_cons_self t rest, rfl⟩
      · have hlen : (rest.dropWhile (sameWindow i (windowStart i t.Timestamp))).length ≤ n := by
          have h1 := List.Sublist.length_le
            (@List.dropWhile_sublist _ rest (sameWindow i (windowStart i t.Timestamp)))
          simp only [List.length_cons] at hn
          omega
        obtain ⟨u, hu, hcu⟩ := ih _ hlen c hmem
        refine ⟨u, ?_, hcu⟩
        exact List.mem_cons_of_mem t
          ((List.dropWhile_sublist (sameWindow i (windowStart i t.Timestamp))).subset hu)


theorem dropWhile_window_len {i : Int} (t : TradeHistory) (rest : List TradeHistory)
    {n : Nat} (hn : (t :: rest).length ≤ n + 1) :
    (rest.dropWhile (sameWindow i (windowStart i t.Timestamp))).length ≤ n := by
  have h1 := List.Sublist.length_le
    (@List.dropWhile_sublist _ rest (sameWindow i (windowStart i t.Timestamp)))
  simp only [List.length_cons] at hn
  omega

theorem sorted_dropWhile_window {i : Int} (t : TradeHistory) (rest : List TradeHistory)
    (hs : List.Sorted tradeLE (t :: rest)) :
    List.Sorted tradeLE (rest.dropWhile (sameWindow i (windowStart i t.Timestamp))) :=
  List.Pairwise.sublist
    (List.dropWhile_sublist (sameWindow i (windowStart i t.Timestamp)))
    (List.sorted_cons.mp hs).2

theorem makeCandles_pairwise {i : Int} (hi : 0 < i) :
    ∀ (n : Nat) (ts : List TradeHistory), ts.length ≤ n → List.Sorted tradeLE ts →
      List.Pairwise (fun a b => a.Time + i ≤ b.Time) (makeCandles i ts) := by
  intro n
  induction n with
  | zero =>
    intro ts hn hs
    cases ts with
    | nil => rw [makeCandles_nil]; exact List.Pairwise.nil
    | cons t rest => simp at hn
  | succ n ih =>
    intro ts hn hs
    cases ts with
    | nil => rw [makeCandles_nil]; exact List.Pairwise.nil
    | cons t rest =>
      rw [makeCandles_cons]
      have hlen := dropWhile_window_len (i := i) t rest hn
      have hsorted' := sorted_dropWhile_window (i := i) t rest hs
      refine List.pairwise_cons.mpr ⟨?_, ih _ hlen hsorted'⟩
      intro c hc
      obtain ⟨u, hu, hcu⟩ := makeCandles_time_mem n _ hlen c hc
      have hlb := dropWhile_window_lb hi t rest hs u hu
      have hws : windowStart i t.Timestamp + i ≤ windowStart i u.Timestamp :=
        windowStart_succ_le hi hlb
      show windowStart i t.Timestamp + i ≤ c.Time
      rw [hcu]
      exact hws

theorem makeCandles_window {i : Int} (hi : 0 < i) :
    ∀ (n : Nat) (ts : List TradeHistory), ts.length ≤ n → List.Sorted tradeLE ts →
      ∀ c ∈ makeCandles i ts,
        ∃ t1 run1, ts.filter (inWindowB i c.Time) = t1 :: run1 ∧
          c = candleOf i t1 run1 := by
  intro n
  induction n with
  | zero =>
    intro ts hn hs c hc
    cases ts with
    | nil => rw [makeCandles_nil] at hc; simp at hc
    | cons t rest => simp at hn
  | succ n ih =>
    intro ts hn hs c hc
    cases ts with
    | nil => rw [makeCandles_nil] at hc; simp at hc
    | cons t rest =>
      rw [makeCandles_cons] at hc
      rcases List.mem_cons.mp hc with rfl | hmem
      · refine ⟨t, rest.takeWhile (sameWindow i (windowStart i t.Timestamp)), ?_, rfl⟩
        show (t :: rest).filter (inWindowB i (windowStart i t.Timestamp)) = _
        exact filter_window_eq hi t rest hs
      · have hlen := dropWhile_window_len (i := i) t rest hn
        have hsorted' := sorted_dropWhile_window (i := i) t rest hs
        obtain ⟨t1, run1, hf, hc1⟩ := ih _ hlen hsorted' c hmem
        refine ⟨t1, run1, ?_, hc1⟩
        have hct : c.Time = windowStart i t1.Timestamp := by
          rw [hc1]
          rfl
        have ht1mem : t1 ∈ rest.dropWhile (sameWindow i (windowStart i t.Timestamp)) := by
          have ht1f : t1 ∈ (rest.dropWhile
              (sameWindow i (windowStart i t.Timestamp))).filter (inWindowB i c.Time) := by
            rw [hf]
            exact List.mem_cons_self t1 run1
          exact List.mem_of_mem_filter ht1f
        have hlb := dropWhile_window_lb hi t rest hs t1 ht1mem
        have hwslb : windowStart i t.Timestamp + i ≤ windowStart i t1.Timestamp :=
          windowStart_succ_le hi hlb
        have hfail : ∀ x ∈ t :: rest.takeWhile (sameWindow i (windowStart i t.Timestamp)),
            ¬ inWindowB i c.Time x = true := by
          intro x hx hcontra
          simp only [inWindowB, Bool.and_eq_true, decide_eq_true_eq] at hcontra
          rw [hct] at hcontra
          have hx_eq : windowStart i x.Timestamp = windowStart i t1.Timestamp :=
            (windowStart_eq_iff hi).mpr hcontra
          have hx_w : windowStart i x.Timestamp = windowStart i t.Timestamp := by
            rcases List.mem_cons.mp hx with rfl | hxr
            · rfl
            · have := List.mem_takeWhile_imp hxr
              simpa [sameWindow] using this
          rw [hx_w] at hx_eq
          omega
        have hsplit : rest = rest.takeWhile (sameWindow i (windowStart i t.Timestamp)) ++
            rest.dropWhile (sameWindow i (windowStart i t.Timestamp)) :=
          (List.takeWhile_append_dropWhile _ _).symm
        rw [List.filter_cons_of_neg
          (hfail t (List.mem_cons_self t _)), hsplit, List.filter_append,
          List.filter_eq_nil_iff.mpr
            (fun x hx => hfail x (List.mem_cons_of_mem t hx)),
          List.nil_append]
        exact hf

theorem candleOf_window_spec {i : Int} (trades : List TradeHistory)
    (t1 : TradeHistory) (run1 : List TradeHistory) (c : Candle)
    (hfil : trades.filter (inWindowB i c.Time) = t1 :: run1)
    (hc : c = candleOf i t1 run1) :
    CandleWindowSpec trades i c := by
  unfold CandleWindowSpec
  rw [hfil]
  refine ⟨?_, ?_, ?_, ?_, ?_, ?_, ?_⟩
  · simp [hc, candleOf]
  · rw [List.getLast?_cons]
    simp [hc, candleOf]
  · simp only [hc, candleOf, List.map_cons, List.mem_cons]
    exact foldl_max_mem run1 t1.Price
  · intro q hq
    simp only [List.map_cons, List.mem_cons] at hq
    simp only [hc, candleOf]
    rcases hq with rfl | hq
    · exact foldl_max_init run1 t1.Price
    · exact le_foldl_max run1 t1.Price q hq
  · simp only [hc, candleOf, List.map_cons, List.mem_cons]
    exact foldl_min_mem run1 t1.Price
  · intro q hq
    simp only [List.map_cons, List.mem_cons] at hq
    simp only [hc, candleOf]
    rcases hq with rfl | hq
    · exact foldl_min_init run1 t1.Price
    · exact foldl_min_le run1 t1.Price q hq
  · simp only [hc, candleOf, List.map_cons, List.sum_cons]
    exact foldl_add_eq run1 t1.Amount

theorem makeCandles_cover {i : Int} (hi : 0 < i) :
    ∀ (n : Nat) (ts : List TradeHistory), ts.length ≤ n → List.Sorted tradeLE ts →
      ∀ u ∈ ts, ∃ c ∈ makeCandles i ts,
        c.Time ≤ u.Timestamp ∧ u.Timestamp < c.Time + i := by
  intro n
  induction n with
  | zero =>
    intro ts hn hs u hu
    cases ts with
    | nil => simp at hu
    | cons t rest => simp at hn
  | succ n ih =>
    intro ts hn hs u hu
    cases ts with
    | nil => simp at hu
    | cons t rest =>
      rw [makeCandles_cons]
      rcases List.mem_cons.mp hu with rfl | hur
      · refine ⟨candleOf i u (rest.takeWhile (sameWindow i (windowStart i u.Timestamp))),
          List.mem_cons_self _ _, ?_, ?_⟩
        · exact windowStart_le hi u.Timestamp
        · exact lt_windowStart_add hi u.Timestamp
      · have hsplitmem : u ∈ rest.takeWhile (sameWindow i (windowStart i t.Timestamp)) ++
            rest.dropWhile (sameWindow i (windowStart i t.Timestamp)) := by
          rw [List.takeWhile_append_dropWhile]
          exact hur
        rcases List.mem_append.mp hsplitmem with hA | hB
        · have hsw : sameWindow i (windowStart i t.Timestamp) u = true :=
            List.mem_takeWhile_imp hA
          have hws : windowStart i u.Timestamp = windowStart i t.Timestamp := by
            simpa [sameWindow] using hsw
          have hb := (windowStart_eq_iff hi).mp hws
          exact ⟨candleOf i t (rest.takeWhile (sameWindow i (windowStart i t.Timestamp))),
            List.mem_cons_self _ _, hb.1, hb.2⟩
        · have hlen := dropWhile_window_len (i := i) t rest hn
          have hsorted' := sorted_dropWhile_window (i := i) t rest hs
          obtain ⟨c, hcmem, hcb⟩ := ih _ hlen hsorted' u hB
          exact ⟨c, List.mem_cons_of_mem _ hcmem, hcb⟩


/-! ### Validator lemmas -/

theorem validateData_of_valid (trades : List TradeHistory) (hne : trades ≠ [])
    (hwf : ∀ t ∈ trades, wellFormed t = true) :
    validateData trades = .ok (trades.insertionSort tradeLE) := by
  cases trades with
  | nil => exact absurd rfl hne
  | cons a l =>
    have hfind : (a :: l).find? (fun t => !wellFormed t) = none :=
      List.find?_eq_none.mpr (fun x hx => by rw [hwf x hx]; simp)
    simp only [validateData, hfind]

/-! ### Claim theorems -/

/-- C1: for every start < end, positive interval and positive limit,
`CalcDateRanges` returns groups whose concatenated windows exactly cover
`[start, end]` in order with no gaps and no overlaps; every window except
possibly the last has length exactly the interval duration, the last being
clipped to end at `end`; and every group except possibly the last has exactly
`limit` windows, the last having between 1 and `limit`. -/
theorem calcDateRanges_partitions (s e : Int) (i : Interval) (limit : Int)
    (hse : s < e) (hi : 0 < i) (hl : 0 < limit) :
    ∃ gs, CalcDateRanges s e i limit = some gs ∧ PlanSpec s e i limit gs := by
  have hii : (0 : Int) < i := hi
  obtain ⟨hne, hhead, hlast, hchain, hpos, hdrop, hlastlen, _⟩ :=
    windowsBetween_spec hii (e - s).toNat s e (le_refl _) hse
  obtain ⟨hcne, hcflat, hcdrop, hclast⟩ :=
    chunks_spec (show limit.toNat ≠ 0 by omega)
      (windowsBetween i s e).length (windowsBetween i s e) (le_refl _) hne
  refine ⟨chunks limit.toNat (windowsBetween i s e), ?_, ?_⟩
  · unfold CalcDateRanges
    rw [if_neg (not_le.mpr hl)]
  · unfold PlanSpec
    rw [hcflat]
    refine ⟨hcne, ?_, ?_, hne, hhead, hlast, hchain, hpos, hdrop, hlastlen⟩
    · intro g hg
      rw [hcdrop g hg]
      omega
    · intro g hg
      obtain ⟨h1, h2⟩ := hclast g hg
      exact ⟨h1, by omega⟩

/-- C1 witness: the partition of `[0, 10]` by interval 3 with limit 2. -/
theorem calcDateRanges_partitions_witness :
    ∃ gs, CalcDateRanges 0 10 3 2 = some gs ∧ PlanSpec 0 10 3 2 gs :=
  calcDateRanges_partitions 0 10 3 2 (by decide) (by decide) (by decide)

/-- C2: for start ≤ end and a positive interval, `TotalCandlesPerInterval` is
the ceiling of the span divided by the interval (characterized by the two
bracketing inequalities), is at least 1 on every non-empty span (in particular
one strictly shorter than the interval), never fails on spans the interval
does not evenly divide (it is a total function), and counts exactly the
windows the range planner tiles over the span. -/
theorem totalCandlesPerInterval_ceiling (s e : Int) (i : Interval)
    (hse : s ≤ e) (hi : 0 < i) :
    (TotalCandlesPerInterval s e i - 1) * i < e - s ∧
    e - s ≤ TotalCandlesPerInterval s e i * i ∧
    (0 < e - s → 1 ≤ TotalCandlesPerInterval s e i) ∧
    ((windowsBetween i s e).length : Int) = TotalCandlesPerInterval s e i := by
  have hii : (0 : Int) < i := hi
  unfold TotalCandlesPerInterval
  have h1 : i * ((e - s + i - 1) / i) + (e - s + i - 1) % i = e - s + i - 1 :=
    Int.ediv_add_emod _ _
  have h2 : 0 ≤ (e - s + i - 1) % i := Int.emod_nonneg _ (ne_of_gt hii)
  have h3 : (e - s + i - 1) % i < i := Int.emod_lt_of_pos _ hii
  refine ⟨?_, ?_, ?_, ?_⟩
  · have hexp : ((e - s + i - 1) / i - 1) * i = i * ((e - s + i - 1) / i) - i := by
      ring
    rw [hexp]
    linarith
  · have hexp : ((e - s + i - 1) / i) * i = i * ((e - s + i - 1) / i) := by ring
    rw [hexp]
    linarith
  · intro hpos
    by_contra hcon
    push_neg at hcon
    have hq0 : (e - s + i - 1) / i ≤ 0 := by omega
    have hmul : i * ((e - s + i - 1) / i) ≤ 0 := by
      have := mul_le_mul_of_nonneg_left hq0 (le_of_lt hii)
      simpa using this
    linarith
  · rcases lt_or_eq_of_le hse with hlt | heq
    · exact (windowsBetween_spec hii (e - s).toNat s e (le_refl _) hlt).2.2.2.2.2.2.2
    · rw [← heq]
      rw [windowsBetween, dif_neg (not_le.mpr hii), dif_pos (le_refl s)]
      have harith : s - s + i - 1 = i - 1 := by ring
      rw [List.length_nil, harith, Int.ediv_eq_zero_of_lt (by omega) (by omega)]
      rfl

/-- C2 witness: a one-hour span with a fifteen-day interval still yields one
candle (the span is non-empty and shorter than the interval). -/
theorem totalCandlesPerInterval_ceiling_witness :
    (TotalCandlesPerInterval 0 (3600 * nsPerSecond) Fifteenday - 1) * Fifteenday <
      3600 * nsPerSecond - 0 ∧
    3600 * nsPerSecond - 0 ≤
      TotalCandlesPerInterval 0 (3600 * nsPerSecond) Fifteenday * Fifteenday ∧
    (0 < 3600 * nsPerSecond - 0 →
      1 ≤ TotalCandlesPerInterval 0 (3600 * nsPerSecond) Fifteenday) ∧
    ((windowsBetween Fifteenday 0 (3600 * nsPerSecond)).length : Int) =
      TotalCandlesPerInterval 0 (3600 * nsPerSecond) Fifteenday :=
  totalCandlesPerInterval_ceiling 0 (3600 * nsPerSecond) Fifteenday
    (by decide) (by decide)

/-- C6: a non-positive limit is an error condition for `CalcDateRanges`: no
partition is produced. -/
theorem calcDateRanges_nonpositive_limit (s e : Int) (i : Interval)
    (limit : Int) (hl : limit ≤ 0) : CalcDateRanges s e i limit = none := by
  unfold CalcDateRanges
  rw [if_pos hl]

/-- C6 witness: limit 0 on a concrete valid span. -/
theorem calcDateRanges_nonpositive_limit_witness :
    CalcDateRanges 0 10 3 0 = none :=
  calcDateRanges_nonpositive_limit 0 10 3 0 (by decide)

/-- C7: the unsupported-interval error for a one-year interval renders in its
short form as exactly "oneyear interval unsupported by exchange" and in its
unwrapped form as exactly "8760h0m0s interval unsupported by exchange"; both
renderings instantiate the fixed template "%s interval unsupported by
exchange", and the error value preserves the offending interval. -/
theorem errorKline_renderings :
    ErrorKline.Error ⟨OneYear⟩ = "oneyear interval unsupported by exchange" ∧
    ErrorKline.Unwrap ⟨OneYear⟩ = "8760h0m0s interval unsupported by exchange" ∧
    (∀ k : ErrorKline,
      ErrorKline.Error k =
        sprintfS ErrUnsupportedInterval (Interval.Word k.Interval) ∧
      ErrorKline.Unwrap k =
        sprintfS ErrUnsupportedInterval (durationString k.Interval) ∧
      (ErrorKline.mk k.Interval).Interval = k.Interval) := by
  exact ⟨by decide, by decide, fun k => ⟨rfl, rfl, rfl⟩⟩

/-- C8: the 24-hour interval's word is "oneday", its short form is "24h", its
duration is exactly 24 hours, and a duration outside the well-known table
(1337 hours) maps to the fallback word "notfound". -/
theorem oneDay_representations :
    Interval.Word OneDay = "oneday" ∧
    Interval.Short OneDay = "24h" ∧
    Interval.Duration OneDay = 24 * (3600 * nsPerSecond) ∧
    DurationToWord (1337 * OneHour) = "notfound" := by
  exact ⟨by decide, by decide, by decide, by decide⟩

/-- C10: the aliased interval constants are equal by value (`OneDay` equals
`TwentyFourHour`, `OneWeek` equals `SevenDay`, both seven times 24 hours), so
the duration-based lookups necessarily give each aliased pair a single word;
in particular the shared seven-day duration maps to "oneweek". -/
theorem interval_alias_words :
    OneDay = TwentyFourHour ∧
    OneWeek = SevenDay ∧
    OneWeek = 7 * (24 * OneHour) ∧
    Interval.Word OneDay = Interval.Word TwentyFourHour ∧
    Interval.Word OneWeek = Interval.Word SevenDay ∧
    DurationToWord OneWeek = "oneweek" ∧
    DurationToWord SevenDay = "oneweek" ∧
    Interval.Word OneDay = "oneday" := by
  exact ⟨rfl, rfl, rfl, rfl, rfl, by decide, by decide, by decide⟩


/-- C3: for every validated, chronologically sorted, non-empty trade batch and
strictly positive interval, `CreateKline` succeeds and buckets the trades into
consecutive non-overlapping interval-length windows: each candle's open is the
first in-window trade's price, close the last trade's price, high/low the
maximum/minimum in-window price, volume the sum of in-window amounts, and the
candle sequence is strictly ascending with no duplicate timestamps. -/
theorem createKline_buckets_ohlcv (trades : List TradeHistory) (i : Interval)
    (p : Pair) (a : Asset) (ex : String)
    (hne : trades ≠ []) (hwf : ∀ t ∈ trades, wellFormed t = true)
    (hsorted : List.Sorted tradeLE trades) (hi : 0 < i) :
    ∃ item, CreateKline trades i p a ex = .ok item ∧
      item.Candles = makeCandles i trades ∧ CandleSpec trades i item := by
  have hii : (0 : Int) < i := hi
  have hvalid : validateData trades = .ok trades := by
    rw [validateData_of_valid trades hne hwf, List.Sorted.insertionSort_eq hsorted]
  refine ⟨⟨ex, p, a, i, makeCandles i trades⟩, ?_, rfl, ?_⟩
  · unfold CreateKline
    rw [if_neg (not_le.mpr hii), hvalid]
  · unfold CandleSpec
    refine ⟨?_, ?_, ?_, ?_, ?_⟩
    · show makeCandles i trades ≠ []
      cases trades with
      | nil => exact absurd rfl hne
      | cons t rest => rw [makeCandles_cons]; simp
    · exact (makeCandles_pairwise hii trades.length trades (le_refl _) hsorted).imp
        (fun hab => lt_of_lt_of_le (lt_add_of_pos_right _ hii) hab)
    · exact makeCandles_pairwise hii trades.length trades (le_refl _) hsorted
    · intro c hc
      obtain ⟨t1, run1, hf, hc1⟩ :=
        makeCandles_window hii trades.length trades (le_refl _) hsorted c hc
      exact candleOf_window_spec trades t1 run1 c hf hc1
    · intro u hu
      exact makeCandles_cover hii trades.length trades (le_refl _) hsorted u hu

/-- C3 witness: three valid sorted trades, two falling in the first one-minute
window and one in the next. -/
theorem createKline_buckets_ohlcv_witness :
    ∃ item, CreateKline
        [⟨30, "1", 10, 1⟩, ⟨40, "2", 20, 2⟩, ⟨70, "3", 5, 3⟩] 60
        ⟨"BTC", "USD"⟩ "spot" "Binance" = .ok item ∧
      item.Candles = makeCandles 60
        [⟨30, "1", 10, 1⟩, ⟨40, "2", 20, 2⟩, ⟨70, "3", 5, 3⟩] ∧
      CandleSpec [⟨30, "1", 10, 1⟩, ⟨40, "2", 20, 2⟩, ⟨70, "3", 5, 3⟩] 60 item :=
  createKline_buckets_ohlcv
    [⟨30, "1", 10, 1⟩, ⟨40, "2", 20, 2⟩, ⟨70, "3", 5, 3⟩] 60
    ⟨"BTC", "USD"⟩ "spot" "Binance" (by decide) (by decide) (by decide) (by decide)

/-- C4 counterexample: a batch of two well-formed trades sharing a timestamp
passes validation, but no reordering of it is strictly ascending — the output
(equal to the stably sorted input) has equal adjacent timestamps. -/
theorem validateData_strict_counterexample :
    validateData [⟨100, "a", 1, 1⟩, ⟨100, "b", 2, 1⟩] =
      .ok [⟨100, "a", 1, 1⟩, ⟨100, "b", 2, 1⟩] ∧
    ¬ List.Pairwise (fun x y => x.Timestamp < y.Timestamp)
        [(⟨100, "a", 1, 1⟩ : TradeHistory), ⟨100, "b", 2, 1⟩] := by
  exact ⟨by decide, by decide⟩

/-- C4 (amended): `validateData` fails on nil/empty input, fails naming a
record whenever any record is malformed (zero timestamp, non-positive price or
amount), and on a batch of well-formed records succeeds with the records
reordered into ascending (non-decreasing) order by timestamp — strictly
ascending whenever the timestamps are pairwise distinct, as in the
["2","1","3"] example. -/
theorem validateData_spec :
    (validateData [] = .error .emptyInput) ∧
    (∀ trades t, t ∈ trades → wellFormed t = false →
      ∃ tid, validateData trades = .error (.invalidRecord tid)) ∧
    (∀ trades, trades ≠ [] → (∀ t ∈ trades, wellFormed t = true) →
      ∃ sorted, validateData trades = .ok sorted ∧ sorted.Perm trades ∧
        List.Sorted tradeLE sorted ∧
        (List.Pairwise (fun x y => x.Timestamp ≠ y.Timestamp) trades →
          List.Pairwise (fun x y => x.Timestamp < y.Timestamp) sorted)) := by
  refine ⟨rfl, ?_, ?_⟩
  · intro trades t ht hbad
    cases trades with
    | nil => simp at ht
    | cons a l =>
      have hsome : ((a :: l).find? (fun x => !wellFormed x)).isSome = true :=
        List.find?_isSome.mpr ⟨t, ht, by rw [hbad]; rfl⟩
      obtain ⟨t2, ht2⟩ := Option.isSome_iff_exists.mp hsome
      exact ⟨t2.TID, by simp only [validateData, ht2]⟩
  · intro trades hne hwf
    refine ⟨trades.insertionSort tradeLE, validateData_of_valid trades hne hwf,
      List.perm_insertionSort tradeLE trades,
      List.sorted_insertionSort tradeLE trades, ?_⟩
    intro hdist
    have hdist2 : List.Pairwise (fun x y => x.Timestamp ≠ y.Timestamp)
        (trades.insertionSort tradeLE) :=
      ((List.perm_insertionSort tradeLE trades).pairwise_iff
        (fun h => Ne.symm h)).mpr hdist
    have hcomb := List.Pairwise.and
      (List.sorted_insertionSort tradeLE trades) hdist2
    exact hcomb.imp (fun hab => lt_of_le_of_ne hab.1 hab.2)

/-- C4 witness: the out-of-order example with ids "2","1","3": validation
succeeds and returns the records in id order "1","2","3". -/
theorem validateData_spec_witness :
    (∃ sorted, validateData
        [⟨120, "2", 1000, 1⟩, ⟨60, "1", 1001, 1⟩, ⟨180, "3", 1002, 1⟩] =
          .ok sorted ∧
      sorted.Perm [⟨120, "2", 1000, 1⟩, ⟨60, "1", 1001, 1⟩, ⟨180, "3", 1002, 1⟩] ∧
      List.Sorted tradeLE sorted ∧
      (List.Pairwise (fun x y => x.Timestamp ≠ y.Timestamp)
          [(⟨120, "2", 1000, 1⟩ : TradeHistory), ⟨60, "1", 1001, 1⟩,
            ⟨180, "3", 1002, 1⟩] →
        List.Pairwise (fun x y => x.Timestamp < y.Timestamp) sorted)) ∧
    validateData [⟨120, "2", 1000, 1⟩, ⟨60, "1", 1001, 1⟩, ⟨180, "3", 1002, 1⟩] =
      .ok [⟨60, "1", 1001, 1⟩, ⟨120, "2", 1000, 1⟩, ⟨180, "3", 1002, 1⟩] :=
  ⟨validateData_spec.2.2 _ (by decide) (by decide), by decide⟩

/-- C5: `CreateKline` fails with the invalid-interval error whenever the
interval is not strictly positive, even on otherwise valid trades; it fails
whenever trades are nil/empty; validator failures propagate unchanged; and a
success is only ever the fully aggregated item built from a successful
validation, so no partial or garbage item is returned on any failure. -/
theorem createKline_error_spec :
    (∀ trades (i : Interval) p a ex, i ≤ 0 →
      CreateKline trades i p a ex = .error .invalidInterval) ∧
    (∀ (i : Interval) p a ex, ∃ e, CreateKline [] i p a ex = .error e) ∧
    (∀ trades (i : Interval) p a ex e, 0 < i → validateData trades = .error e →
      CreateKline trades i p a ex = .error e) ∧
    (∀ trades (i : Interval) p a ex item, CreateKline trades i p a ex = .ok item →
      0 < i ∧ ∃ sorted, validateData trades = .ok sorted ∧
        item = ⟨ex, p, a, i, makeCandles i sorted⟩) := by
  refine ⟨?_, ?_, ?_, ?_⟩
  · intro trades i p a ex h
    unfold CreateKline
    rw [if_pos h]
  · intro i p a ex
    by_cases hi : i ≤ 0
    · exact ⟨.invalidInterval, by unfold CreateKline; rw [if_pos hi]⟩
    · refine ⟨.emptyInput, ?_⟩
      unfold CreateKline
      rw [if_neg hi]
      rfl
  · intro trades i p a ex e hi herr
    unfold CreateKline
    rw [if_neg (not_le.mpr hi), herr]
  · intro trades i p a ex item h
    unfold CreateKline at h
    by_cases hi : i ≤ 0
    · rw [if_pos hi] at h
      exact absurd h (by simp)
    · rw [if_neg hi] at h
      cases hv : validateData trades with
      | error e =>
        rw [hv] at h
        exact absurd h (by simp)
      | ok sorted =>
        rw [hv] at h
        simp only [Except.ok.injEq] at h
        exact ⟨lt_of_not_le hi, sorted, rfl, h.symm⟩

/-- C5 witness: a zero interval on a valid batch, an empty batch, and a batch
whose only record has a zero timestamp. -/
theorem createKline_error_spec_witness :
    CreateKline [⟨30, "1", 10, 1⟩] 0 ⟨"BTC", "USD"⟩ "spot" "B" =
      .error .invalidInterval ∧
    (∃ e, CreateKline [] 60 ⟨"BTC", "USD"⟩ "spot" "B" = .error e) ∧
    CreateKline [⟨0, "1", 10, 1⟩] 60 ⟨"BTC", "USD"⟩ "spot" "B" =
      .error (.invalidRecord "1") :=
  ⟨createKline_error_spec.1 [⟨30, "1", 10, 1⟩] 0 ⟨"BTC", "USD"⟩ "spot" "B"
      (by decide),
   createKline_error_spec.2.1 60 ⟨"BTC", "USD"⟩ "spot" "B",
   createKline_error_spec.2.2.1 [⟨0, "1", 10, 1⟩] 60 ⟨"BTC", "USD"⟩ "spot" "B"
      (.invalidRecord "1") (by decide) (by decide)⟩

/-- C9 counterexample: the interval component of the row key written by the
store for a one-day item is the short form "24h", not the interval word
"oneday" — the claim's key component "interval word" does not match the code,
which writes `Interval.Short`. -/
theorem ohlcvStore_word_counterexample :
    (databaseCandles "uuid1"
        ⟨"Binance", ⟨"BTC", "USD"⟩, "spot", OneDay, [⟨0, 1, 2, 1, 1, 10⟩]⟩).map
      (fun r => r.RowInterval) = ["24h"] ∧
    Interval.Word OneDay = "oneday" ∧
    ("24h" : String) ≠ "oneday" := by
  exact ⟨by decide, by decide, by decide⟩

/-- C9 (amended): the store writes one row per candle, keyed by the composite
(timestamp, exchange identifier, base, quote, interval short string); an
upsert whose key is already present overwrites the existing row in place, so
re-inserting an already-seen candle for the same key overwrites rather than
duplicates. -/
theorem ohlcvStore_upsert_spec :
    (∀ uuid item, (databaseCandles uuid item).length = item.Candles.length) ∧
    (∀ uuid item r, r ∈ databaseCandles uuid item →
      r.RowInterval = Interval.Short item.Interval) ∧
    (∀ tbl r r2, candleKey r = candleKey r2 →
      upsertCandle (upsertCandle tbl r) r2 = upsertCandle tbl r2) ∧
    (∀ tbl r, (∃ x ∈ tbl, candleKey x = candleKey r) →
      (upsertCandle tbl r).length = tbl.length) := by
  refine ⟨?_, ?_, ?_, ?_⟩
  · intro uuid item
    unfold databaseCandles
    exact List.length_map _ _
  · intro uuid item r hr
    unfold databaseCandles at hr
    obtain ⟨c, _, hcr⟩ := List.mem_map.mp hr
    rw [← hcr]
  · intro tbl r r2 hk
    unfold upsertCandle
    by_cases hmem : tbl.any (fun x => decide (candleKey x = candleKey r)) = true
    · have hmem2 : tbl.any (fun x => decide (candleKey x = candleKey r2)) = true := by
        rw [← hk]
        exact hmem
      have hmapmem : (tbl.map (fun x => if candleKey x = candleKey r then r else x)).any
          (fun x => decide (candleKey x = candleKey r2)) = true := by
        obtain ⟨x0, hx0, hx0k⟩ := List.any_eq_true.mp hmem
        refine List.any_eq_true.mpr ⟨r, ?_, by simp [hk]⟩
        refine List.mem_map.mpr ⟨x0, hx0, ?_⟩
        rw [if_pos (of_decide_eq_true hx0k)]
      rw [if_pos hmem, if_pos hmem2, if_pos hmapmem, List.map_map]
      apply List.map_congr_left
      intro x _
      by_cases hxk : candleKey x = candleKey r
      · simp only [Function.comp_apply]
        rw [if_pos hxk, if_pos hk, if_pos (hxk.trans hk)]
      · simp only [Function.comp_apply]
        rw [if_neg hxk, if_neg (fun hcon => hxk (hcon.trans hk.symm))]
    · have hforall : ∀ x ∈ tbl, candleKey x ≠ candleKey r := by
        intro x hx
        have hfalse := Bool.eq_false_iff.mpr hmem
        have := List.any_eq_false.mp hfalse x hx
        simpa using this
      have hmem2 : (tbl ++ [r]).any (fun x => decide (candleKey x = candleKey r2)) = true :=
        List.any_eq_true.mpr ⟨r, by simp, by simp [hk]⟩
      have hmem3 : ¬ tbl.any (fun x => decide (candleKey x = candleKey r2)) = true := by
        rw [← hk]
        exact hmem
      rw [if_neg hmem, if_pos hmem2, if_neg hmem3, List.map_append]
      have hid : ∀ x ∈ tbl,
          (fun x => if candleKey x = candleKey r2 then r2 else x) x = id x :=
        fun x hx => if_neg (fun hcon => hforall x hx (hcon.trans hk.symm))
      rw [List.map_congr_left hid, List.map_id]
      have hlastrow : [r].map (fun x => if candleKey x = candleKey r2 then r2 else x) =
          [r2] := by
        simp [hk]
      rw [hlastrow]
  · intro tbl r hex
    unfold upsertCandle
    have hmem : tbl.any (fun x => decide (candleKey x = candleKey r)) = true := by
      obtain ⟨x, hx, hxk⟩ := hex
      exact List.any_eq_true.mpr ⟨x, hx, by simp [hxk]⟩
    rw [if_pos hmem, List.length_map]

/-- C9 witness: re-upserting a candle row with the same key (same timestamp,
exchange id, base, quote, interval string) overwrites: the second upsert wins
and the table does not grow. -/
theorem ohlcvStore_upsert_spec_witness :
    upsertCandle (upsertCandle [] ⟨"u", "BTC", "USD", 0, 1, 2, 1, 1, 10, "24h"⟩)
        ⟨"u", "BTC", "USD", 0, 1, 3, 1, 2, 11, "24h"⟩ =
      upsertCandle [] ⟨"u", "BTC", "USD", 0, 1, 3, 1, 2, 11, "24h"⟩ ∧
    (upsertCandle [⟨"u", "BTC", "USD", 0, 1, 2, 1, 1, 10, "24h"⟩]
        ⟨"u", "BTC", "USD", 0, 1, 3, 1, 2, 11, "24h"⟩).length = 1 :=
  ⟨ohlcvStore_upsert_spec.2.2.1 [] ⟨"u", "BTC", "USD", 0, 1, 2, 1, 1, 10, "24h"⟩
      ⟨"u", "BTC", "USD", 0, 1, 3, 1, 2, 11, "24h"⟩ (by decide),
   ohlcvStore_upsert_spec.2.2.2 [⟨"u", "BTC", "USD", 0, 1, 2, 1, 1, 10, "24h"⟩]
      ⟨"u", "BTC", "USD", 0, 1, 3, 1, 2, 11, "24h"⟩
      ⟨⟨"u", "BTC", "USD", 0, 1, 2, 1, 1, 10, "24h"⟩, by decide, by decide⟩⟩

end Kline
